import Mathlib

/-!
Shallow embedding of `analytics_util.py`, the analytics pipeline of the
repository: text normalization (`lemmatize`), semantic near-duplicate removal
(`remove_similar`), term salience extraction (`tf_idf_nitems`), extractive
summarization (`digest`), relevance scoring (`eval_article`) and trend
detection (`generate_trend_wordcloud`).

External trained models (the spaCy linguistic pipeline, the scikit-learn
tf-idf weighting, the KMeans clustering, the LexRank sentence ranker) are
opaque capabilities per the specification; they are modelled as explicit
function parameters.  Machine floats of the similarity scores are modelled
as rationals.  All repository-side control flow (pair enumeration, the
removal-candidate choice, the `KeyError` no-op, the median, the halving and
the cluster-boundary scan) is translated directly from the source.
-/

/-- Stable descending insertion by a key, the model of a stable
descending sort step (Python `sorted(..., reverse=True)` and
`Counter.most_common` are stable). -/
def insDesc {α β : Type} [LinearOrder β] (key : α → β) (x : α) : List α → List α
  | [] => [x]
  | y :: ys => if key x < key y then y :: insDesc key x ys else x :: y :: ys

/-- Stable sort in descending key order. -/
def sortDesc {α β : Type} [LinearOrder β] (key : α → β) (l : List α) : List α :=
  l.foldr (insDesc key) []

/-- Ascending stable insertion for rationals, used by `median`. -/
def insAsc (x : ℚ) : List ℚ → List ℚ
  | [] => [x]
  | y :: ys => if y < x then y :: insAsc x ys else x :: y :: ys

/-- Ascending stable sort for rationals, the sort inside Python
`statistics.median`. -/
def sortAsc (l : List ℚ) : List ℚ :=
  l.foldr insAsc []

/-- Model of Python `statistics.median`: sort the data; an odd count yields
the middle element, an even count the mean of the two middle elements, and
empty data raises `StatisticsError`. -/
def median (data : List ℚ) : Except String ℚ :=
  let n := data.length
  let s := sortAsc data
  if n = 0 then Except.error "no median for empty data"
  else if n % 2 = 1 then Except.ok (s.getD (n / 2) 0)
  else Except.ok ((s.getD (n / 2 - 1) 0 + s.getD (n / 2) 0) / 2)

/-- Model of `eval_article` (src/analytics_util.py:136-153): the median of
the semantic similarity over the full cross product
`itertools.product(terms, role_keywords)`.  The similarity of the two
one-word spaCy docs is the opaque parameter `sim`. -/
def eval_article (sim : String → String → ℚ) (terms role_keywords : List String) :
    Except String ℚ :=
  median ((terms.product role_keywords).map (fun p => sim p.1 p.2))

/-- Index pairs in the order of Python `itertools.combinations(xs, r=2)`:
all `(i, j)` with `i < j < n`, ordered by `i` then `j`. -/
def combPairs (n : Nat) : List (Nat × Nat) :=
  (List.range n).flatMap
    (fun i => ((List.range n).filter (fun j => i < j)).map (fun j => (i, j)))

/-- The removal-candidate choice of `remove_similar`
(src/analytics_util.py:67): `digest1 if len(digest1) > len(digest2) else
digest2`, as the index of the chosen row. -/
def removal_candidate (dlen : List String → Nat) (d1 d2 : List String)
    (i j : Nat) : Nat :=
  if dlen d1 > dlen d2 then i else j

/-- One iteration of the pair loop of `remove_similar`
(src/analytics_util.py:63-73).  The dataframe is the list of
`(index label, digest)` rows; dropping by label models
`dataframe.drop(temp_series.index[temp_series == candidate])`, where a spaCy
`Doc` compares by identity, so exactly the candidate's own row matches; when
the label is already gone the Python `KeyError` is caught and the loop
continues, which coincides with the filter being a no-op. -/
def dedupeStep (sim : List String → List String → ℚ) (dlen : List String → Nat)
    (digests : List (List String)) (df : List (Nat × List String))
    (p : Nat × Nat) : List (Nat × List String) :=
  let d1 := digests.getD p.1 []
  let d2 := digests.getD p.2 []
  if sim d1 d2 ≥ 87 / 100 then
    df.filter (fun r => r.1 ≠ removal_candidate dlen d1 d2 p.1 p.2)
  else df

/-- Model of `remove_similar` (src/analytics_util.py:50-75).  `digests` is
the "Digest" column; `sim` is the opaque spaCy similarity of the docs built
from the joined digests and `dlen` the length of those docs.  The result is
the dataframe (rows with their original integer labels) after the full pass
over all digest pairs. -/
def remove_similar (sim : List String → List String → ℚ)
    (dlen : List String → Nat) (digests : List (List String)) :
    List (Nat × List String) :=
  (combPairs digests.length).foldl (dedupeStep sim dlen digests) digests.enum

/-- Model of `tf_idf_nitems`'s score table (src/analytics_util.py:109-113):
one row per distinct term of the article (the vectorizer's feature set),
scored by the opaque tf-idf weight of the first document row and sorted by
score in descending order. -/
def tf_idf_table (weight : String → ℚ) (article : List String) :
    List (String × ℚ) :=
  sortDesc Prod.snd (article.dedup.map (fun t => (t, weight t)))

/-- Model of `tf_idf_nitems` (src/analytics_util.py:100-114):
`results.sort_values('TF-IDF', ascending=False).head(n).index.to_list()`. -/
def tf_idf_nitems (weight : String → ℚ) (article : List String) (n : Nat) :
    List String :=
  ((tf_idf_table weight article).take n).map Prod.fst

/-- Occurrence counting in first-occurrence key order, the model of
`collections.Counter` built from a token list (Python dicts preserve
insertion order). -/
def countOcc (toks : List String) : List (String × Int) :=
  toks.foldl
    (fun acc t =>
      if acc.any (fun p => p.1 == t) then
        acc.map (fun p => if p.1 == t then (p.1, p.2 + 1) else p)
      else acc ++ [(t, 1)])
    []

/-- Lookup of a key's count with a default, modelling `Counter.get`. -/
def lookupD (l : List (String × Int)) (k : String) (d : Int) : Int :=
  match l.find? (fun p => p.1 == k) with
  | some p => p.2
  | none => d

/-- Model of `Counter.subtract`: every key of `self` has the other count
subtracted (0 when absent); keys appearing only in `other` are appended, in
`other`'s order, with the negated count. -/
def subtractCounts (self other : List (String × Int)) : List (String × Int) :=
  self.map (fun p => (p.1, p.2 - lookupD other p.1 0)) ++
    (other.filter (fun p => ¬ self.any (fun q => q.1 == p.1))).map
      (fun p => (p.1, -p.2))

/-- The midpoint of the batch, `int(len(articles) / 2)`
(src/analytics_util.py:170). -/
def half_point (articles : List (List String)) : Nat :=
  articles.length / 2

/-- The "old" half, `articles.head(half_point)` (src/analytics_util.py:171). -/
def old_articles (articles : List (List String)) : List (List String) :=
  articles.take (half_point articles)

/-- The "new" half, `articles.tail(half_point - half_point % 2)`
(src/analytics_util.py:172): the last `half_point - half_point % 2`
elements. -/
def new_articles (articles : List (List String)) : List (List String) :=
  articles.drop
    (articles.length - (half_point articles - half_point articles % 2))

/-- The ranked frequency diff of `generate_trend_wordcloud`
(src/analytics_util.py:174-180): count each flattened half, subtract the
old counts from the new counts, and sort descending by count
(`Counter.most_common`). -/
def frequencyDiff (articles : List (List String)) : List (String × Int) :=
  sortDesc Prod.snd
    (subtractCounts (countOcc (new_articles articles).flatten)
      (countOcc (old_articles articles).flatten))

/-- The cluster-boundary scan of `generate_trend_wordcloud`
(src/analytics_util.py:188-191): the first index `i ≥ 1` whose label
differs from the label at `i - 1`, or `0` when no label ever changes. -/
def firstChange : List Nat → Nat
  | a :: b :: rest =>
    if b ≠ a then 1
    else
      match firstChange (b :: rest) with
      | 0 => 0
      | Nat.succ k => k + 2
  | _ => 0

/-- The trending keywords of `generate_trend_wordcloud`
(src/analytics_util.py:182-191): cluster the diff values with the opaque
clustering `km` (KMeans with 3 clusters) and keep the diff entries before
the first label change; with no label change the dict stays empty. -/
def trending_keywords (km : List Int → List Nat)
    (articles : List (List String)) : List (String × Int) :=
  let difference := frequencyDiff articles
  let y_pred := km (difference.map Prod.snd)
  difference.take (firstChange y_pred)

/-- Model of the computational core of `generate_trend_wordcloud`
(src/analytics_util.py:156-203): batches shorter than 20 raise the
`ValueError`, otherwise the trending-keyword dict is produced.  The
word-cloud rasterization and the file write that consume the dict are the
out-of-scope rendering side effects. -/
def generate_trend_wordcloud (km : List Int → List Nat)
    (articles : List (List String)) : Except String (List (String × Int)) :=
  if articles.length < 20 then
    Except.error "Given Series is too short to meaningfully find trends"
  else Except.ok (trending_keywords km articles)

/-- A sentence object of the ranker; `text` models `str(sentence)`. -/
structure Sentence where
  text : String

/-- Model of `digest` (src/analytics_util.py:117-133): the LexRank
summarizer is the opaque parameter `lrs`; the loop appends `str(sentence)`
for each ranked sentence in the ranker's own order. -/
def digest (lrs : String → Nat → List Sentence) (article : String) (n : Nat) :
    List String :=
  (lrs article n).foldl (fun acc s => acc ++ [s.text]) []

/-- Helper for the recursion bounds of the regex models. -/
theorem length_dropWhile_le' (p : Char → Bool) (l : List Char) :
    (l.dropWhile p).length ≤ l.length :=
  ((List.dropWhile_suffix p).sublist).length_le

/-- Non-whitespace test, the model of the regex class `\S`. -/
def notWs (c : Char) : Bool :=
  !c.isWhitespace

/-- Cyrillic letter test, the model of the regex class `[а-яА-Я]`. -/
def isCyr (c : Char) : Bool :=
  ('а' ≤ c && c ≤ 'я') || ('А' ≤ c && c ≤ 'Я')

/-- Model of `re.sub(r'\S*@\S*\s?', '', article)`
(src/analytics_util.py:37): every maximal non-whitespace run containing
`'@'` is removed together with one following whitespace character; the
greedy `\S*` pieces make each match cover the whole run, so the
substitution acts run by run. -/
def removeEmails : List Char → List Char
  | [] => []
  | c :: cs =>
    if c.isWhitespace then c :: removeEmails cs
    else
      let w := List.takeWhile notWs (c :: cs)
      let rest := List.dropWhile notWs (c :: cs)
      if '@' ∈ w then removeEmails (rest.drop 1)
      else w ++ removeEmails rest
termination_by l => l.length
decreasing_by
  · simp only [List.length_cons]; omega
  · rename_i hws
    have hc : c.isWhitespace = false := by
      cases h : c.isWhitespace
      · rfl
      · exact absurd h hws
    rw [List.dropWhile_cons_of_pos (by simp [notWs, hc])]
    have h := length_dropWhile_le' notWs cs
    simp only [List.length_drop, List.length_cons]
    omega
  · rename_i hws
    have hc : c.isWhitespace = false := by
      cases h : c.isWhitespace
      · rfl
      · exact absurd h hws
    rw [List.dropWhile_cons_of_pos (by simp [notWs, hc])]
    have h := length_dropWhile_le' notWs cs
    simp only [List.length_cons]
    omega

/-- Model of `re.sub(r'http\S+', '', article)` (src/analytics_util.py:38):
each occurrence of the literal `http` followed by at least one
non-whitespace character is removed together with the maximal following
non-whitespace run. -/
def removeHttp : List Char → List Char
  | [] => []
  | c :: cs =>
    if c = 'h' && cs.take 3 == ['t', 't', 'p'] &&
        (match cs.drop 3 with
         | x :: _ => notWs x
         | [] => false) then
      removeHttp ((cs.drop 3).dropWhile notWs)
    else c :: removeHttp cs
termination_by l => l.length
decreasing_by
  · have h1 := length_dropWhile_le' notWs (cs.drop 3)
    simp only [List.length_drop, List.length_cons] at *
    omega
  · simp only [List.length_cons]; omega

/-- Model of `re.sub(r'www.\S+', '', article)` (src/analytics_util.py:39):
the literal `www`, one arbitrary non-newline character (the unescaped
dot), and a maximal non-whitespace run of length at least one are
removed. -/
def removeWww : List Char → List Char
  | [] => []
  | c :: cs =>
    if c = 'w' && cs.take 2 == ['w', 'w'] &&
        (match cs.drop 2 with
         | d :: e :: _ => d ≠ '\n' && notWs e
         | _ => false) then
      removeWww ((cs.drop 3).dropWhile notWs)
    else c :: removeWww cs
termination_by l => l.length
decreasing_by
  · have h1 := length_dropWhile_le' notWs (cs.drop 3)
    simp only [List.length_drop, List.length_cons] at *
    omega
  · simp only [List.length_cons]; omega

/-- Model of `re.sub('[^а-яА-Я]+', ' ', article)`
(src/analytics_util.py:42): every maximal run of non-Cyrillic characters
becomes a single space. -/
def cleanNonCyrillic : List Char → List Char
  | [] => []
  | c :: cs =>
    if isCyr c then c :: cleanNonCyrillic cs
    else ' ' :: cleanNonCyrillic (cs.dropWhile (fun x => !isCyr x))
termination_by l => l.length
decreasing_by
  · simp only [List.length_cons]; omega
  · have h := length_dropWhile_le' (fun x => !isCyr x) cs
    simp only [List.length_cons]
    omega

/-- A token of the opaque linguistic pipeline: its lemma and its
part-of-speech tag. -/
structure Token where
  lemma_ : String
  pos_ : String

/-- The fixed allowed part-of-speech set (src/analytics_util.py:23). -/
def POS_TAGS : List String :=
  ["NOUN", "ADJ", "VERB", "ADV", "PROPN"]

/-- The cleaned text handed to the linguistic pipeline by `lemmatize`
(src/analytics_util.py:37-42): the three removal substitutions followed by
the non-Cyrillic collapse. -/
def lemmatize_cleaned (article : String) : String :=
  String.mk (cleanNonCyrillic (removeWww (removeHttp (removeEmails article.data))))

/-- The tokens kept by `lemmatize` (src/analytics_util.py:45): the opaque
pipeline `nlp` runs on the cleaned text and only tokens whose tag is in
`POS_TAGS` survive. -/
def lemmatize_tokens (nlp : String → List Token) (article : String) :
    List Token :=
  (nlp (lemmatize_cleaned article)).filter (fun t => t.pos_ ∈ POS_TAGS)

/-- Model of `lemmatize` (src/analytics_util.py:28-47): the lemma sequence
of the kept tokens. -/
def lemmatize (nlp : String → List Token) (article : String) : List String :=
  (lemmatize_tokens nlp article).map Token.lemma_

/-- Containment of one character list in another as a contiguous block,
used to state that a string appears verbatim. -/
def occursIn (pat s : List Char) : Prop :=
  ∃ l r, s = l ++ pat ++ r

/-- An email-like string: one containing `'@'`. -/
def emailLike (s : List Char) : Prop :=
  '@' ∈ s

/-- A URL-like string: one containing the literal `http` or `www`. -/
def urlLike (s : List Char) : Prop :=
  occursIn "http".data s ∨ occursIn "www".data s

/-- A nonempty data list always has a median. -/
theorem median_ok_of_ne_nil (data : List ℚ) (h : data ≠ []) :
    ∃ q, median data = Except.ok q := by
  have hn : data.length ≠ 0 := fun h0 => h (List.eq_nil_of_length_eq_zero h0)
  unfold median
  simp only [if_neg hn]
  by_cases hp : data.length % 2 = 1
  · exact ⟨_, by rw [if_pos hp]⟩
  · exact ⟨_, by rw [if_neg hp]⟩

/-- The mapped cross product of two nonempty lists is nonempty and has the
product length. -/
theorem cross_map_length (sim : String → String → ℚ)
    (terms keywords : List String) :
    ((terms.product keywords).map (fun p => sim p.1 p.2)).length =
      terms.length * keywords.length := by
  rw [List.length_map]
  exact List.length_product terms keywords

/-- Nonemptiness of the mapped cross product for nonempty factors. -/
theorem cross_map_ne_nil (sim : String → String → ℚ)
    (terms keywords : List String) (h1 : terms ≠ []) (h2 : keywords ≠ []) :
    (terms.product keywords).map (fun p => sim p.1 p.2) ≠ [] := by
  intro hnil
  have h0 := congrArg List.length hnil
  rw [cross_map_length] at h0
  simp only [List.length_nil] at h0
  rcases Nat.mul_eq_zero.mp h0 with h | h
  · exact h1 (List.eq_nil_of_length_eq_zero h)
  · exact h2 (List.eq_nil_of_length_eq_zero h)

/-- C2: for every nonempty list of terms and nonempty list of role
keywords, the Relevance Scorer `eval_article` returns exactly the median of
the `|terms| * |keywords|` pairwise similarity values over the full cross
product of the two lists. -/
theorem eval_article_is_median_of_cross (sim : String → String → ℚ)
    (terms keywords : List String) (h1 : terms ≠ []) (h2 : keywords ≠ []) :
    ∃ q, eval_article sim terms keywords = Except.ok q ∧
      median ((terms.product keywords).map (fun p => sim p.1 p.2)) =
        Except.ok q ∧
      ((terms.product keywords).map (fun p => sim p.1 p.2)).length =
        terms.length * keywords.length := by
  obtain ⟨q, hq⟩ :=
    median_ok_of_ne_nil _ (cross_map_ne_nil sim terms keywords h1 h2)
  exact ⟨q, hq, hq, cross_map_length sim terms keywords⟩

/-- A fixed concrete similarity used by the witnesses. -/
def sim0 : String → String → ℚ := fun _ _ => 1 / 2

/-- Witness for C2 at terms `["a"]` and keywords `["b"]`. -/
theorem eval_article_is_median_of_cross_witness :
    ∃ q, eval_article sim0 ["a"] ["b"] = Except.ok q ∧
      median (((["a"] : List String).product ["b"]).map
          (fun p => sim0 p.1 p.2)) = Except.ok q ∧
      (((["a"] : List String).product ["b"]).map
          (fun p => sim0 p.1 p.2)).length =
        (["a"] : List String).length * (["b"] : List String).length :=
  eval_article_is_median_of_cross sim0 ["a"] ["b"] (by simp) (by simp)

/-- C6: the Relevance Scorer raises exactly on an empty terms list or an
empty keyword list (no median of zero values exists) and returns a value on
all nonempty inputs. -/
theorem eval_article_error_iff_empty (sim : String → String → ℚ)
    (terms keywords : List String) :
    ((terms = [] ∨ keywords = []) →
      eval_article sim terms keywords =
        Except.error "no median for empty data") ∧
    (terms ≠ [] → keywords ≠ [] →
      ∃ q, eval_article sim terms keywords = Except.ok q) := by
  constructor
  · intro h
    have hnil : (terms.product keywords).map (fun p => sim p.1 p.2) = [] := by
      apply List.eq_nil_of_length_eq_zero
      rw [cross_map_length]
      rcases h with rfl | rfl <;> simp
    show median ((terms.product keywords).map (fun p => sim p.1 p.2)) = _
    rw [hnil]
    rfl
  · intro h1 h2
    exact median_ok_of_ne_nil _ (cross_map_ne_nil sim terms keywords h1 h2)

/-- Witness for C6: an empty terms list errors, nonempty inputs
succeed. -/
theorem eval_article_error_iff_empty_witness :
    eval_article sim0 [] ["b"] = Except.error "no median for empty data" ∧
    ∃ q, eval_article sim0 ["a"] ["b"] = Except.ok q :=
  ⟨(eval_article_error_iff_empty sim0 [] ["b"]).1 (Or.inl rfl),
   (eval_article_error_iff_empty sim0 ["a"] ["b"]).2 (by simp) (by simp)⟩

/-- C3: the Trend Detector rejects every batch of fewer than 20 articles
with the human-readable validation message, and a batch of exactly 20
articles passes the validation and produces a result. -/
theorem trend_batch_size_validation (km : List Int → List Nat)
    (articles articles20 : List (List String))
    (h19 : articles.length < 20) (h20 : articles20.length = 20) :
    generate_trend_wordcloud km articles =
      Except.error "Given Series is too short to meaningfully find trends" ∧
    ∃ t, generate_trend_wordcloud km articles20 = Except.ok t := by
  constructor
  · simp [generate_trend_wordcloud, h19]
  · exact ⟨trending_keywords km articles20, by simp [generate_trend_wordcloud, h20]⟩

/-- Witness for C3 at a batch of 19 and a batch of 20 empty articles. -/
theorem trend_batch_size_validation_witness :
    generate_trend_wordcloud (fun v => List.replicate v.length 0)
        (List.replicate 19 ([] : List String)) =
      Except.error "Given Series is too short to meaningfully find trends" ∧
    ∃ t, generate_trend_wordcloud (fun v => List.replicate v.length 0)
        (List.replicate 20 ([] : List String)) = Except.ok t :=
  trend_batch_size_validation _ _ _ (by simp) (by simp)

/-- C5: for every batch of length at least 20, the "new" half used for the
frequency diff has the even length `n / 2 - n / 2 % 2` and the "old" half
is the first `n / 2` articles. -/
theorem trend_halves (articles : List (List String))
    (h : 20 ≤ articles.length) :
    (new_articles articles).length =
      articles.length / 2 - articles.length / 2 % 2 ∧
    (new_articles articles).length % 2 = 0 ∧
    old_articles articles = articles.take (articles.length / 2) := by
  refine ⟨?_, ?_, rfl⟩ <;>
    · simp only [new_articles, half_point, List.length_drop]
      omega

/-- Witness for C5 at a batch of 22 empty articles. -/
theorem trend_halves_witness :
    (new_articles (List.replicate 22 ([] : List String))).length = 10 ∧
    (new_articles (List.replicate 22 ([] : List String))).length % 2 = 0 ∧
    old_articles (List.replicate 22 ([] : List String)) =
      List.take 11 (List.replicate 22 ([] : List String)) := by
  have h := trend_halves (List.replicate 22 ([] : List String)) (by simp)
  simpa using h

/-- C9: the Extractive Summarizer returns the ranker's sentences as
strings, in the ranker's own rank order, and exactly `n` of them whenever
the opaque ranker yields `n` sentences. -/
theorem digest_rank_order (lrs : String → Nat → List Sentence)
    (article : String) (n : Nat) (h : (lrs article n).length = n) :
    digest lrs article n = (lrs article n).map Sentence.text ∧
    (digest lrs article n).length = n := by
  have key : ∀ (l : List Sentence) (acc : List String),
      l.foldl (fun a s => a ++ [s.text]) acc = acc ++ l.map Sentence.text := by
    intro l
    induction l with
    | nil => intro acc; simp
    | cons s rest ih => intro acc; simp [ih]
  refine ⟨by simpa [digest] using key (lrs article n) [], ?_⟩
  simp [digest, key (lrs article n) [], h]

/-- A fixed three-sentence ranker used by the C9 witness. -/
def lrs0 : String → Nat → List Sentence := fun _ _ => [⟨"s1"⟩, ⟨"s2"⟩, ⟨"s3"⟩]

/-- Witness for C9 at a ranker returning three sentences. -/
theorem digest_rank_order_witness :
    digest lrs0 "x" 3 = (lrs0 "x" 3).map Sentence.text ∧
    (digest lrs0 "x" 3).length = 3 :=
  digest_rank_order lrs0 "x" 3 rfl

/-- Membership is preserved by the descending insertion. -/
theorem mem_insDesc {α β : Type} [LinearOrder β] (key : α → β) (a x : α)
    (l : List α) : x ∈ insDesc key a l ↔ x = a ∨ x ∈ l := by
  induction l with
  | nil => simp [insDesc]
  | cons y ys ih =>
    by_cases h : key a < key y
    · simp only [insDesc, if_pos h, List.mem_cons, ih]
      tauto
    · simp only [insDesc, if_neg h, List.mem_cons]

/-- The descending insertion grows the length by one. -/
theorem length_insDesc {α β : Type} [LinearOrder β] (key : α → β) (a : α)
    (l : List α) : (insDesc key a l).length = l.length + 1 := by
  induction l with
  | nil => rfl
  | cons y ys ih =>
    by_cases h : key a < key y
    · simp [insDesc, if_pos h, ih]
    · simp [insDesc, if_neg h]

/-- The descending insertion preserves descending key order. -/
theorem pairwise_insDesc {α β : Type} [LinearOrder β] (key : α → β) (a : α)
    (l : List α) (h : List.Pairwise (fun x y => key y ≤ key x) l) :
    List.Pairwise (fun x y => key y ≤ key x) (insDesc key a l) := by
  induction l with
  | nil => simp [insDesc]
  | cons y ys ih =>
    rcases List.pairwise_cons.mp h with ⟨hy, hys⟩
    by_cases hc : key a < key y
    · simp only [insDesc, if_pos hc]
      refine List.pairwise_cons.mpr ⟨?_, ih hys⟩
      intro z hz
      rcases (mem_insDesc key a z ys).mp hz with rfl | hz'
      · exact le_of_lt hc
      · exact hy z hz'
    · simp only [insDesc, if_neg hc]
      refine List.pairwise_cons.mpr ⟨?_, h⟩
      intro z hz
      rcases List.mem_cons.mp hz with rfl | hz'
      · exact not_lt.mp hc
      · exact le_trans (hy z hz') (not_lt.mp hc)

/-- The descending sort is a membership-preserving reordering. -/
theorem mem_sortDesc {α β : Type} [LinearOrder β] (key : α → β) (l : List α)
    (x : α) : x ∈ sortDesc key l ↔ x ∈ l := by
  induction l with
  | nil => simp [sortDesc]
  | cons y ys ih =>
    show x ∈ insDesc key y (sortDesc key ys) ↔ _
    rw [mem_insDesc]
    simp [ih]

/-- The descending sort preserves length. -/
theorem length_sortDesc {α β : Type} [LinearOrder β] (key : α → β)
    (l : List α) : (sortDesc key l).length = l.length := by
  induction l with
  | nil => rfl
  | cons y ys ih =>
    show (insDesc key y (sortDesc key ys)).length = _
    rw [length_insDesc, ih]
    rfl

/-- The descending sort yields pairwise non-increasing keys. -/
theorem pairwise_sortDesc {α β : Type} [LinearOrder β] (key : α → β)
    (l : List α) :
    List.Pairwise (fun x y => key y ≤ key x) (sortDesc key l) := by
  induction l with
  | nil => simp [sortDesc]
  | cons y ys ih => exact pairwise_insDesc key y _ ih

/-- C7: for every tokenized article and requested count `n`, the Term
Salience Extractor returns at most `n` terms and at most the number of
distinct terms, every returned term comes from the input vocabulary, the
associated salience scores are non-increasing along the ranked table, and
when the article has fewer than `n` distinct terms all of them are
returned. -/
theorem tf_idf_topn_properties (weight : String → ℚ) (article : List String)
    (n : Nat) :
    (tf_idf_nitems weight article n).length ≤ n ∧
    (tf_idf_nitems weight article n).length ≤ article.dedup.length ∧
    (∀ t ∈ tf_idf_nitems weight article n, t ∈ article) ∧
    List.Pairwise (fun a b => b.2 ≤ a.2)
      ((tf_idf_table weight article).take n) ∧
    (article.dedup.length < n →
      ∀ t ∈ article, t ∈ tf_idf_nitems weight article n) := by
  have hlen_table :
      (tf_idf_table weight article).length = article.dedup.length := by
    rw [tf_idf_table, length_sortDesc, List.length_map]
  refine ⟨?_, ?_, ?_, ?_, ?_⟩
  · rw [tf_idf_nitems, List.length_map]
    exact le_trans (List.length_take_le n _) (le_refl n)
  · rw [tf_idf_nitems, List.length_map, ← hlen_table]
    exact List.length_take_le' n _
  · intro t ht
    rw [tf_idf_nitems] at ht
    obtain ⟨p, hp, rfl⟩ := List.mem_map.mp ht
    have hp1 : p ∈ tf_idf_table weight article := List.take_subset n _ hp
    rw [tf_idf_table] at hp1
    have hp2 := (mem_sortDesc Prod.snd _ p).mp hp1
    obtain ⟨t', ht', heq⟩ := List.mem_map.mp hp2
    have : p.1 = t' := by rw [← heq]
    rw [this]
    exact List.mem_dedup.mp ht'
  · exact List.Pairwise.sublist (List.take_sublist n _)
      (pairwise_sortDesc Prod.snd _)
  · intro hlt t ht
    have htake : (tf_idf_table weight article).take n =
        tf_idf_table weight article :=
      List.take_of_length_le (by omega)
    rw [tf_idf_nitems, htake]
    have hm : (t, weight t) ∈ article.dedup.map (fun u => (u, weight u)) :=
      List.mem_map.mpr ⟨t, List.mem_dedup.mpr ht, rfl⟩
    have hm2 : (t, weight t) ∈ tf_idf_table weight article := by
      rw [tf_idf_table]
      exact (mem_sortDesc Prod.snd _ _).mpr hm
    exact List.mem_map.mpr ⟨(t, weight t), hm2, rfl⟩

/-- A fixed concrete term weight used by the C7 witness. -/
def w0 : String → ℚ := fun s => (s.length : ℚ)

/-- A fixed concrete tokenized article used by the C7 witness. -/
def a0 : List String := ["aa", "b", "aa"]

/-- Witness for C7 at two distinct terms and `n = 5`. -/
theorem tf_idf_topn_properties_witness :
    (tf_idf_nitems w0 a0 5).length ≤ 5 ∧
    "aa" ∈ tf_idf_nitems w0 a0 5 :=
  ⟨(tf_idf_topn_properties w0 a0 5).1,
   (tf_idf_topn_properties w0 a0 5).2.2.2.2 (by decide) "aa" (by decide)⟩

/-- One dedupe step never adds rows. -/
theorem mem_of_mem_dedupeStep (sim : List String → List String → ℚ)
    (dlen : List String → Nat) (digests : List (List String))
    (df : List (Nat × List String)) (p : Nat × Nat) (r : Nat × List String)
    (h : r ∈ dedupeStep sim dlen digests df p) : r ∈ df := by
  simp only [dedupeStep] at h
  split at h
  · exact List.mem_of_mem_filter h
  · exact h

/-- The whole pair pass never adds rows. -/
theorem mem_of_mem_foldl_dedupe (sim : List String → List String → ℚ)
    (dlen : List String → Nat) (digests : List (List String)) :
    ∀ (ps : List (Nat × Nat)) (df : List (Nat × List String))
      (r : Nat × List String),
      r ∈ List.foldl (dedupeStep sim dlen digests) df ps → r ∈ df := by
  intro ps
  induction ps with
  | nil => intro df r h; simpa using h
  | cons p ps ih =>
    intro df r h
    rw [List.foldl_cons] at h
    exact mem_of_mem_dedupeStep sim dlen digests df p r (ih _ r h)

/-- Processing a listed pair whose similarity reaches the threshold leaves
no row labelled with that pair's removal candidate. -/
theorem foldl_dedupe_ne_candidate (sim : List String → List String → ℚ)
    (dlen : List String → Nat) (digests : List (List String)) (i j : Nat)
    (hsim : sim (digests.getD i []) (digests.getD j []) ≥ 87 / 100) :
    ∀ (ps : List (Nat × Nat)) (df : List (Nat × List String)),
      (i, j) ∈ ps →
      ∀ r ∈ List.foldl (dedupeStep sim dlen digests) df ps,
        r.1 ≠ removal_candidate dlen (digests.getD i [])
          (digests.getD j []) i j := by
  intro ps
  induction ps with
  | nil => intro df hmem; simp at hmem
  | cons p ps ih =>
    intro df hmem r hr
    rw [List.foldl_cons] at hr
    rcases List.mem_cons.mp hmem with heq | hmem'
    · subst heq
      have hr' := mem_of_mem_foldl_dedupe sim dlen digests ps _ r hr
      simp only [dedupeStep] at hr'
      rw [if_pos hsim] at hr'
      exact of_decide_eq_true (List.mem_filter.mp hr').2
    · exact ih _ hmem' r hr

/-- Every pair of positions `i < j < n` is enumerated by `combPairs`. -/
theorem mem_combPairs (i j n : Nat) (h1 : i < j) (h2 : j < n) :
    (i, j) ∈ combPairs n := by
  simp only [combPairs, List.mem_flatMap, List.mem_map, List.mem_filter,
    List.mem_range]
  exact ⟨i, by omega, j, ⟨by omega, by simpa using h1⟩, rfl⟩

/-- The removal candidate of a qualifying pair is absent from the output of
the full pass. -/
theorem remove_similar_ne_candidate (sim : List String → List String → ℚ)
    (dlen : List String → Nat) (digests : List (List String)) (i j : Nat)
    (hij : i < j) (hj : j < digests.length)
    (hsim : sim (digests.getD i []) (digests.getD j []) ≥ 87 / 100) :
    ∀ r ∈ remove_similar sim dlen digests,
      r.1 ≠ removal_candidate dlen (digests.getD i [])
        (digests.getD j []) i j :=
  foldl_dedupe_ne_candidate sim dlen digests i j hsim
    (combPairs digests.length) digests.enum
    (mem_combPairs i j digests.length hij hj)

/-- The output of the full pass is a subset of the input rows. -/
theorem remove_similar_sub (sim : List String → List String → ℚ)
    (dlen : List String → Nat) (digests : List (List String)) :
    ∀ r ∈ remove_similar sim dlen digests, r ∈ digests.enum :=
  fun r hr =>
    mem_of_mem_foldl_dedupe sim dlen digests (combPairs digests.length)
      digests.enum r hr

/-- C1 (amended): for every unordered pair of digests with similarity at
least 0.87, the pair's removal candidate — the digest of strictly greater
length, or on a length tie the second of the pair — is absent from the
output, the pair removes nothing else (an already-removed candidate makes
the step a benign no-op), and the output only ever shrinks the input
collection; the shorter digest, however, is retained only if no other
qualifying pair selects it as its own removal candidate. -/
theorem remove_similar_pair_policy (sim : List String → List String → ℚ)
    (dlen : List String → Nat) (digests : List (List String)) (i j : Nat)
    (hij : i < j) (hj : j < digests.length)
    (hsim : sim (digests.getD i []) (digests.getD j []) ≥ 87 / 100) :
    (∀ r ∈ remove_similar sim dlen digests,
      r.1 ≠ removal_candidate dlen (digests.getD i [])
        (digests.getD j []) i j) ∧
    (removal_candidate dlen (digests.getD i []) (digests.getD j []) i j =
      if dlen (digests.getD i []) > dlen (digests.getD j []) then i else j) ∧
    (∀ r ∈ remove_similar sim dlen digests, r ∈ digests.enum) :=
  ⟨remove_similar_ne_candidate sim dlen digests i j hij hj hsim, rfl,
   remove_similar_sub sim dlen digests⟩

/-- A concrete similarity for the C1 counterexample: rows 0 and 1 and rows
0 and 2 are near-duplicates, rows 1 and 2 are not. -/
def ceSim : List String → List String → ℚ :=
  fun x y => if x.length + y.length == 6 then 1 / 10 else 9 / 10

/-- Concrete digests for the C1 counterexample: lengths 3, 4 and 2. -/
def ceDigests : List (List String) :=
  [["a", "b", "c"], ["a", "b", "c", "d"], ["x", "y"]]

/-- Counterexample to C1 as stated: the pair of rows 0 and 1 qualifies
(similarity 0.9 at least 0.87, digest 1 strictly longer), digest 1 is
removed, yet the shorter digest 0 is NOT retained in the output: the later
qualifying pair of rows 0 and 2 removes row 0, leaving only row 2. -/
theorem remove_similar_shorter_not_retained :
    ceSim (ceDigests.getD 0 []) (ceDigests.getD 1 []) ≥ 87 / 100 ∧
    (ceDigests.getD 1 []).length > (ceDigests.getD 0 []).length ∧
    remove_similar ceSim List.length ceDigests = [(2, ["x", "y"])] := by
  refine ⟨by norm_num [ceSim, ceDigests], by decide, ?_⟩
  norm_num [remove_similar, combPairs, dedupeStep, ceSim, ceDigests,
    removal_candidate, List.enum, List.enumFrom, List.range, List.range.loop]

/-- A constant similarity exactly at the threshold, for witnesses. -/
def wSim : List String → List String → ℚ := fun _ _ => 87 / 100

/-- Two digests of lengths 1 and 2 for the C1 witness. -/
def wDigests : List (List String) := [["a"], ["b", "c"]]

/-- Witness for C1 (amended): in a qualifying pair with digest lengths 1
and 2 the longer row 1 is removed. -/
theorem remove_similar_pair_policy_witness :
    (1, ["b", "c"]) ∉ remove_similar wSim List.length wDigests :=
  fun hmem =>
    (remove_similar_pair_policy wSim List.length wDigests 0 1 (by decide)
        (by decide) (le_refl _)).1 (1, ["b", "c"]) hmem (by decide)

/-- C10: when the two digests of a qualifying pair have exactly equal
lengths the removal candidate is deterministically the second digest of
the pair, never the first, and that second row is absent from the
output. -/
theorem remove_similar_tie_removes_second (sim : List String → List String → ℚ)
    (dlen : List String → Nat) (digests : List (List String)) (i j : Nat)
    (hij : i < j) (hj : j < digests.length)
    (heq : dlen (digests.getD i []) = dlen (digests.getD j []))
    (hsim : sim (digests.getD i []) (digests.getD j []) ≥ 87 / 100) :
    removal_candidate dlen (digests.getD i []) (digests.getD j []) i j = j ∧
    ∀ r ∈ remove_similar sim dlen digests, r.1 ≠ j := by
  have hc : removal_candidate dlen (digests.getD i [])
      (digests.getD j []) i j = j := by
    rw [removal_candidate, if_neg (by omega)]
  refine ⟨hc, fun r hr => ?_⟩
  have h2 := remove_similar_ne_candidate sim dlen digests i j hij hj hsim r hr
  rw [hc] at h2
  exact h2

/-- Two digests of equal length 1 for the C10 witness. -/
def wDigestsTie : List (List String) := [["a"], ["b"]]

/-- Witness for C10 at a pair of equal-length digests. -/
theorem remove_similar_tie_removes_second_witness :
    removal_candidate List.length (wDigestsTie.getD 0 [])
      (wDigestsTie.getD 1 []) 0 1 = 1 ∧
    (1, ["b"]) ∉ remove_similar wSim List.length wDigestsTie := by
  have h := remove_similar_tie_removes_second wSim List.length wDigestsTie 0 1
    (by decide) (by decide) (by decide) (le_refl _)
  exact ⟨h.1, fun hmem => h.2 (1, ["b"]) hmem rfl⟩

/-- Unfolding equation for the two-element case of the boundary scan. -/
theorem firstChange_cons_cons (a b : Nat) (rest : List Nat) :
    firstChange (a :: b :: rest) =
      if b ≠ a then 1
      else
        match firstChange (b :: rest) with
        | 0 => 0
        | Nat.succ k => k + 2 := rfl

/-- The boundary index is strictly below the label-list length. -/
theorem firstChange_lt : ∀ (y : List Nat), y ≠ [] → firstChange y < y.length := by
  intro y
  induction y with
  | nil => intro h; exact absurd rfl h
  | cons a t ih =>
    intro _
    cases t with
    | nil => simp [firstChange]
    | cons b rest =>
      rw [firstChange_cons_cons]
      by_cases hab : b = a
      · rw [if_neg (not_not_intro hab)]
        cases hfc : firstChange (b :: rest) with
        | zero =>
          show 0 < (a :: b :: rest).length
          simp
        | succ k =>
          show k + 2 < (a :: b :: rest).length
          have h2 := ih (by simp)
          rw [hfc] at h2
          simp only [List.length_cons] at *
          omega
      · rw [if_pos hab]
        simp only [List.length_cons]
        omega

/-- Below the boundary index every label equals its predecessor. -/
theorem firstChange_before : ∀ (y : List Nat) (i : Nat), 0 < i →
    i < firstChange y → y.getD i 0 = y.getD (i - 1) 0 := by
  intro y
  induction y with
  | nil => intro i h1 h2; simp [firstChange] at h2
  | cons a t ih =>
    intro i h1 h2
    cases t with
    | nil => simp [firstChange] at h2
    | cons b rest =>
      rw [firstChange_cons_cons] at h2
      by_cases hab : b = a
      · rw [if_neg (not_not_intro hab)] at h2
        cases hfc : firstChange (b :: rest) with
        | zero =>
          rw [hfc] at h2
          have h3 : i < 0 := h2
          omega
        | succ k =>
          rw [hfc] at h2
          have h3 : i < k + 2 := h2
          rcases Nat.lt_or_ge i 2 with hi | hi
          · have hi1 : i = 1 := by omega
            subst hi1
            simp [hab]
          · obtain ⟨m, rfl⟩ : ∃ m, i = m + 2 := ⟨i - 2, by omega⟩
            simp only [List.getD_cons_succ, Nat.add_sub_cancel]
            have h4 := ih (m + 1) (by omega) (by rw [hfc]; omega)
            simpa using h4
      · rw [if_pos hab] at h2
        omega

/-- At a nonzero boundary index the label differs from its predecessor. -/
theorem firstChange_at : ∀ (y : List Nat), firstChange y ≠ 0 →
    y.getD (firstChange y) 0 ≠ y.getD (firstChange y - 1) 0 := by
  intro y
  induction y with
  | nil => intro h; exact absurd rfl h
  | cons a t ih =>
    intro h
    cases t with
    | nil => exact absurd rfl h
    | cons b rest =>
      rw [firstChange_cons_cons] at h ⊢
      by_cases hab : b = a
      · rw [if_neg (not_not_intro hab)] at h ⊢
        cases hfc : firstChange (b :: rest) with
        | zero => rw [hfc] at h; exact absurd rfl h
        | succ k =>
          show (a :: b :: rest).getD (k + 2) 0 ≠ (a :: b :: rest).getD (k + 1) 0
          simp only [List.getD_cons_succ]
          have h5 := ih (by rw [hfc]; omega)
          rw [hfc] at h5
          simpa using h5
      · rw [if_pos hab]
        show (a :: b :: rest).getD 1 0 ≠ (a :: b :: rest).getD 0 0
        simpa using hab

/-- With no label change anywhere the boundary index stays zero. -/
theorem firstChange_none : ∀ (y : List Nat),
    (∀ i, 0 < i → i < y.length → y.getD i 0 = y.getD (i - 1) 0) →
    firstChange y = 0 := by
  intro y
  induction y with
  | nil => intro _; rfl
  | cons a t ih =>
    intro h
    cases t with
    | nil => rfl
    | cons b rest =>
      rw [firstChange_cons_cons]
      have hab : b = a := by
        have h1 := h 1 (by omega) (by simp)
        simpa using h1
      rw [if_neg (not_not_intro hab)]
      have hrec : firstChange (b :: rest) = 0 := by
        apply ih
        intro i h1 h2
        obtain ⟨m, rfl⟩ : ∃ m, i = m + 1 := ⟨i - 1, by omega⟩
        have h3 := h (m + 2) (by omega)
          (by simp only [List.length_cons] at h2 ⊢; omega)
        simp only [List.getD_cons_succ, Nat.add_sub_cancel] at h3
        simpa using h3
      rw [hrec]

/-- C4: for every valid Trend Detector input the trending-keyword list is
the strict prefix of the descending-sorted frequency-diff list ending just
before the first position whose cluster label differs from the previous
position's label; with no label change the trending list is empty, and no
entry past the detected boundary is ever included. -/
theorem trending_strict_boundary (km : List Int → List Nat)
    (articles : List (List String)) (h20 : 20 ≤ articles.length)
    (hk : (km ((frequencyDiff articles).map Prod.snd)).length =
      (frequencyDiff articles).length)
    (hd : frequencyDiff articles ≠ []) :
    ∃ b, generate_trend_wordcloud km articles =
        Except.ok ((frequencyDiff articles).take b) ∧
      b = firstChange (km ((frequencyDiff articles).map Prod.snd)) ∧
      b < (frequencyDiff articles).length ∧
      (∀ i, 0 < i → i < b →
        (km ((frequencyDiff articles).map Prod.snd)).getD i 0 =
          (km ((frequencyDiff articles).map Prod.snd)).getD (i - 1) 0) ∧
      (b ≠ 0 →
        (km ((frequencyDiff articles).map Prod.snd)).getD b 0 ≠
          (km ((frequencyDiff articles).map Prod.snd)).getD (b - 1) 0) ∧
      ((∀ i, 0 < i →
          i < (km ((frequencyDiff articles).map Prod.snd)).length →
          (km ((frequencyDiff articles).map Prod.snd)).getD i 0 =
            (km ((frequencyDiff articles).map Prod.snd)).getD (i - 1) 0) →
        b = 0) := by
  refine ⟨firstChange (km ((frequencyDiff articles).map Prod.snd)), ?_, rfl,
    ?_, firstChange_before _, firstChange_at _, firstChange_none _⟩
  · rw [generate_trend_wordcloud, if_neg (by omega)]
    rfl
  · have hyne : km ((frequencyDiff articles).map Prod.snd) ≠ [] := by
      intro h0
      have h1 := congrArg List.length h0
      rw [hk] at h1
      exact hd (List.eq_nil_of_length_eq_zero h1)
    have h2 := firstChange_lt _ hyne
    omega

/-- A fixed one-cluster clustering used by the C4 witness. -/
def wkm : List Int → List Nat := fun v => List.replicate v.length 0

/-- A fixed batch of 20 one-token articles used by the C4 witness. -/
def warts : List (List String) := List.replicate 20 ["a"]

/-- Witness for C4: with constant cluster labels the trending list is the
empty strict prefix. -/
theorem trending_strict_boundary_witness :
    generate_trend_wordcloud wkm warts =
      Except.ok ((frequencyDiff warts).take
        (firstChange (wkm ((frequencyDiff warts).map Prod.snd)))) ∧
    firstChange (wkm ((frequencyDiff warts).map Prod.snd)) <
      (frequencyDiff warts).length := by
  obtain ⟨b, h1, h2, h3, _⟩ := trending_strict_boundary wkm warts
    (by simp [warts]) (by simp [wkm]) (by decide)
  subst h2
  exact ⟨h1, h3⟩

/-- Characters surviving the non-Cyrillic collapse, by strong induction on
the input length. -/
theorem cleanNonCyrillic_chars_aux : ∀ (n : Nat) (l : List Char),
    l.length ≤ n → ∀ c ∈ cleanNonCyrillic l, isCyr c = true ∨ c = ' ' := by
  intro n
  induction n with
  | zero =>
    intro l hl c hc
    have hnil : l = [] := List.eq_nil_of_length_eq_zero (by omega)
    subst hnil
    simp [cleanNonCyrillic] at hc
  | succ n ih =>
    intro l hl c hc
    cases l with
    | nil => simp [cleanNonCyrillic] at hc
    | cons a cs =>
      simp only [cleanNonCyrillic] at hc
      by_cases ha : isCyr a
      · rw [if_pos ha] at hc
        rcases List.mem_cons.mp hc with rfl | h2
        · exact Or.inl ha
        · exact ih cs (by simp only [List.length_cons] at hl; omega) c h2
      · rw [if_neg ha] at hc
        rcases List.mem_cons.mp hc with rfl | h2
        · exact Or.inr rfl
        · refine ih _ ?_ c h2
          have := length_dropWhile_le' (fun x => !isCyr x) cs
          simp only [List.length_cons] at hl
          omega

/-- Every character of the cleaned text is Cyrillic or a space. -/
theorem cleanNonCyrillic_chars (l : List Char) :
    ∀ c ∈ cleanNonCyrillic l, isCyr c = true ∨ c = ' ' :=
  cleanNonCyrillic_chars_aux l.length l (le_refl _)

/-- Every token kept by the normalizer carries an allowed POS tag. -/
theorem lemmatize_pos_filter (nlp : String → List Token) (article : String) :
    ∀ t ∈ lemmatize_tokens nlp article, t.pos_ ∈ POS_TAGS := by
  intro t ht
  have h2 := (List.mem_filter.mp ht).2
  simpa using h2

/-- C8: every token in the Text Normalizer's output has a POS tag in the
fixed allowed set, the text handed to the linguistic pipeline consists of
Cyrillic letters and spaces only, and — given that the opaque Russian
pipeline emits Cyrillic lemmas on such input — no email-like or URL-like
substring of the input appears verbatim in the output lemma sequence. -/
theorem lemmatize_pos_and_no_urls (nlp : String → List Token)
    (article : String)
    (hnlp : ∀ t ∈ nlp (lemmatize_cleaned article),
      ∀ c ∈ t.lemma_.data, isCyr c = true) :
    (∀ c ∈ (lemmatize_cleaned article).data, isCyr c = true ∨ c = ' ') ∧
    (∀ t ∈ lemmatize_tokens nlp article, t.pos_ ∈ POS_TAGS) ∧
    (∀ s : List Char, emailLike s ∨ urlLike s →
      ∀ w ∈ lemmatize nlp article, ¬ occursIn s w.data) := by
  refine ⟨?_, lemmatize_pos_filter nlp article, ?_⟩
  · intro c hc
    exact cleanNonCyrillic_chars _ c hc
  · intro s hs w hw hocc
    obtain ⟨t, ht, rfl⟩ := List.mem_map.mp hw
    have htn : t ∈ nlp (lemmatize_cleaned article) := List.mem_of_mem_filter ht
    have hcyr := hnlp t htn
    obtain ⟨l, r, heq⟩ := hocc
    have hsub : ∀ c ∈ s, c ∈ t.lemma_.data := by
      intro c hcs
      rw [heq]
      exact List.mem_append.mpr
        (Or.inl (List.mem_append.mpr (Or.inr hcs)))
    rcases hs with hs | hs | hs
    · exact absurd (hcyr '@' (hsub '@' hs)) (by decide)
    · obtain ⟨l2, r2, heq2⟩ := hs
      have hh : 'h' ∈ s := by
        rw [heq2]
        exact List.mem_append.mpr
          (Or.inl (List.mem_append.mpr (Or.inr (by decide))))
      exact absurd (hcyr 'h' (hsub 'h' hh)) (by decide)
    · obtain ⟨l2, r2, heq2⟩ := hs
      have hw2 : 'w' ∈ s := by
        rw [heq2]
        exact List.mem_append.mpr
          (Or.inl (List.mem_append.mpr (Or.inr (by decide))))
      exact absurd (hcyr 'w' (hsub 'w' hw2)) (by decide)

/-- A fixed two-token pipeline output used by the C8 witness: a Cyrillic
noun that is kept and a Cyrillic conjunction that is filtered out. -/
def nlp0 : String → List Token :=
  fun _ => [⟨"вода", "NOUN"⟩, ⟨"и", "CCONJ"⟩]

/-- A raw article containing an email and two URL forms, for the C8
witness. -/
def article0 : String := "вода x@y.com http://a www.b вода"

/-- Witness for C8: the email-like substring of the input does not occur in
the surviving lemma. -/
theorem lemmatize_pos_and_no_urls_witness :
    emailLike "x@y.com".data ∧
    ¬ occursIn "x@y.com".data ("вода".data) :=
  ⟨show '@' ∈ "x@y.com".data by decide,
   (lemmatize_pos_and_no_urls nlp0 article0 (by decide)).2.2
     "x@y.com".data (Or.inl (show '@' ∈ "x@y.com".data by decide)) "вода"
     (by decide)⟩
